import Mathlib

/-!
Verification of the solid-waste assessment script (src/script.py).

The script's numeric core is embedded shallowly:

* Python floats are modelled as rationals.
* A raster cell holding the NaN missing marker is modelled as the value
  `none` of an `Option` type; a defined cell value `x` is `some x`.
* A Python function that can raise an exception is modelled as returning
  `Except String`, with `Except.error` standing for the raised exception.
-/

namespace SolidWaste

/-! ### Mass-generation transform, src/script.py lines 133-141 (computeArray)

The source first executes the assignment
pop_array[(pop_array < 0)] = np.nan, replacing every negative cell by NaN,
and only then multiplies the whole array by the rate, by 7, and divides by
1000.  NaN propagates unchanged through each of these operations, which in
the Option embedding is Option.map over the arithmetic. -/

/-- One cell of the transform of computeArray: a negative population value
becomes the missing marker before any arithmetic; a non-negative value p
becomes p * rate * 7 / 1000. -/
def massCell (rate p : ℚ) : Option ℚ :=
  if p < 0 then none else some (p * rate * 7 / 1000)

/-- The whole-array transform of computeArray lines 133-141: elementwise
massCell over the population grid (a list of rows). -/
def computeArray (pop : List (List ℚ)) (rate : ℚ) : List (List (Option ℚ)) :=
  pop.map (fun row => row.map (fun p => massCell rate p))

/-! ### Raster window extraction, src/script.py lines 121-132 (computeArray)

The source obtains the window with dataset.window(*bbox) and reads it with
dataset.read(1, window=window).  These are rasterio operations; they are
embedded here following rasterio's semantics: dataset.window converts the
bounding box to fractional pixel offsets through the inverse affine
transform (north-up raster: origin at the north-west corner, positive pixel
sizes px, py), and DatasetReader.read with the default boundless=False
crops the window to the dataset extent with Window.crop -- offsets clamped
into [0, width] and [0, height] -- and returns an array of the cropped
shape.  No exception is raised for a window that lies outside the extent;
the cropped window is then simply empty (zero width or height). -/

/-- A north-up raster extent: west edge x0, north edge y0, positive pixel
sizes px and py, and pixel dimensions W (columns) and H (rows). -/
structure Raster where
  x0 : ℚ
  y0 : ℚ
  px : ℚ
  py : ℚ
  W : ℕ
  H : ℕ
deriving DecidableEq

/-- A rasterio Window: fractional column/row offsets and sizes in pixels. -/
structure Win where
  colOff : ℚ
  rowOff : ℚ
  w : ℚ
  h : ℚ
deriving DecidableEq

/-- dataset.window(left, bottom, right, top): bounding-box coordinates to
fractional pixel offsets through the inverse affine transform. -/
def datasetWindow (R : Raster) (bbox : ℚ × ℚ × ℚ × ℚ) : Win :=
  ⟨(bbox.1 - R.x0) / R.px, (R.y0 - bbox.2.2.2) / R.py,
   (bbox.2.2.1 - bbox.1) / R.px, (bbox.2.2.2 - bbox.2.1) / R.py⟩

/-- rasterio Window.crop(height, width), applied by DatasetReader.read when
boundless=False: start offsets clamped into [0, extent], stop offsets
clamped into [0, extent], sizes the differences. -/
def cropWin (R : Raster) (win : Win) : Win :=
  ⟨min (max win.colOff 0) (R.W : ℚ),
   min (max win.rowOff 0) (R.H : ℚ),
   max 0 (min (win.colOff + win.w) (R.W : ℚ)) - min (max win.colOff 0) (R.W : ℚ),
   max 0 (min (win.rowOff + win.h) (R.H : ℚ)) - min (max win.rowOff 0) (R.H : ℚ)⟩

/-- The window-extraction step of computeArray lines 121-132: compute the
window for the bounding box and read it, cropped to the raster extent.
The Except return type records whether an exception is raised; rasterio
raises none, so the result is always Except.ok. -/
def extractWindow (R : Raster) (bbox : ℚ × ℚ × ℚ × ℚ) : Except String Win :=
  Except.ok (cropWin R (datasetWindow R bbox))

/-! ### Zonal aggregation, src/script.py lines 205-211 (getNamesStats)

getNamesStats delegates the aggregation itself to rasterstats.zonal_stats
with stats equal to the string sum.  Modelled from the spec: the external
rasterstats sum aggregate of a zone (spec section 4.3) is the sum of the
valid covered pixel values, excluding every pixel whose value equals the
no-data marker or is NaN, and is an explicit undefined value (Python None,
embedded as Option.none) when the zone covers no valid pixel.  A zone is
represented by the list of cell values of the mass grid that it covers,
each an Option as produced by computeArray. -/

/-- Sum aggregate over the covered cells of one zone: none when no covered
cell is valid, otherwise the sum of the valid cells. -/
def zonalSum (pixels : List (Option ℚ)) : Option ℚ :=
  let valid := pixels.filterMap id
  if valid.isEmpty then none else some valid.sum

/-- getNamesStats lines 205-211: for each zone append its name to the name
list and its zonal aggregate to the stat list; equivalently, the pair of
the mapped name list and the mapped aggregate list. -/
def getNamesStats (zones : List (String × List (Option ℚ))) :
    List String × List (Option ℚ) :=
  (zones.map Prod.fst, zones.map (fun z => zonalSum z.2))

/-- End-to-end aggregate of one zone from its covered raw population cells:
apply the mass transform to each covered cell, then the zonal sum. -/
def zoneAggregate (rate : ℚ) (pixels : List ℚ) : Option ℚ :=
  zonalSum (pixels.map (fun p => massCell rate p))

/-! ### Deficit computation, src/script.py lines 257-262 (processStats)

zip_object = zip(provider_stats, provider_coll) truncates to the shorter
list; the loop body computes i - j for each pair.  A provider stat may be
Python None (an undefined aggregate); None minus a number raises TypeError,
which aborts processStats. -/

/-- The subtraction loop over the zipped pairs.  The first pair whose stat
is the undefined value None raises TypeError (Except.error). -/
def subLoop : List (Option ℚ × ℚ) → Except String (List ℚ)
  | [] => Except.ok []
  | p :: t =>
    match p.1 with
    | none => Except.error "TypeError"
    | some i =>
      match subLoop t with
      | Except.ok rest => Except.ok ((i - p.2) :: rest)
      | Except.error e => Except.error e

/-- processStats lines 257-262: zip the provider aggregates with the
reported collection totals and subtract pairwise. -/
def computeUncoll (stats : List (Option ℚ)) (coll : List ℚ) :
    Except String (List ℚ) :=
  subLoop (stats.zip coll)

/-! ### Ranking, src/script.py lines 267-272 (processStats)

dict(zip(names, values)) builds an insertion-ordered dictionary in which a
repeated key keeps its first position but receives its last value;
sorted(d.items(), key=lambda x: x[1], reverse=True) is a stable sort,
descending by value, of the item list.  A stable descending sort is the
unique permutation that is non-increasing by value and keeps elements of
equal value in their input order, so it is embedded as insertion sort with
the relation that puts a before b exactly when b's value is at most a's. -/

/-- Python dict insertion of one key-value pair: if the key is present,
update its value in place; otherwise append the pair at the end. -/
def dictInsert (acc : List (String × α)) (k : String) (v : α) :
    List (String × α) :=
  if acc.any (fun p => decide (p.1 = k)) then
    acc.map (fun p => if p.1 = k then (k, v) else p)
  else acc ++ [(k, v)]

/-- dict(zip(names, values)) as an insertion-ordered association list. -/
def pyDict (l : List (String × α)) : List (String × α) :=
  l.foldl (fun acc p => dictInsert acc p.1 p.2) []

/-- The comparison of sorted(key=lambda x: x[1], reverse=True): a precedes
b when b's value is at most a's value. -/
def rankRel (a b : String × ℚ) : Prop := b.2 ≤ a.2

instance : DecidableRel rankRel := fun a b =>
  inferInstanceAs (Decidable (b.2 ≤ a.2))

/-- Python sorted with reverse=True on the value: the stable descending
sort, realised by insertion sort over rankRel. -/
def pySorted (l : List (String × ℚ)) : List (String × ℚ) :=
  l.insertionSort rankRel

/-- processStats lines 267-272 for one name/value list pair:
sorted(dict(zip(names, values)).items(), key=lambda x: x[1], reverse=True). -/
def processRanking (names : List String) (values : List ℚ) :
    List (String × ℚ) :=
  pySorted (pyDict (names.zip values))

/-- processStats lines 257-272 for the provider lists: compute the
uncollected amounts, then rank them; a TypeError in the subtraction loop
aborts the whole computation. -/
def processProviderStats (names : List String) (stats : List (Option ℚ))
    (coll : List ℚ) : Except String (List (String × ℚ)) :=
  (computeUncoll stats coll).map (fun uncoll => processRanking names uncoll)

/-- The value of the last pair carrying key k, if any. -/
def lastAssoc (k : String) : List (String × α) → Option α
  | [] => none
  | p :: t =>
    match lastAssoc k t with
    | some v => some v
    | none => if p.1 = k then some p.2 else none

/-- Boolean test selecting the pairs that carry key k. -/
def keyEq (k : String) (p : String × α) : Bool := decide (p.1 = k)

/-- Boolean test selecting the pairs that carry value v. -/
def valEq (v : ℚ) (p : String × ℚ) : Bool := decide (p.2 = v)

/-! ### Helper lemmas: the subtraction loop -/

theorem subLoop_map_some : ∀ (stats coll : List ℚ),
    subLoop ((stats.map some).zip coll) =
      Except.ok (List.zipWith (fun a b => a - b) stats coll)
  | [], _ => rfl
  | _ :: _, [] => rfl
  | a :: stats, b :: coll => by
    have ih := subLoop_map_some stats coll
    simp only [List.zip] at ih
    simp only [List.map_cons, List.zip_cons_cons, subLoop, List.zipWith_cons_cons,
      List.zip, ih]

theorem computeUncoll_map_some (stats coll : List ℚ) :
    computeUncoll (stats.map some) coll =
      Except.ok (List.zipWith (fun a b => a - b) stats coll) :=
  subLoop_map_some stats coll

/-! ### Helper lemmas: pyDict -/

theorem dictInsert_of_not_mem {acc : List (String × α)} {k : String} (v : α)
    (h : k ∉ acc.map Prod.fst) : dictInsert acc k v = acc ++ [(k, v)] := by
  unfold dictInsert
  rw [if_neg]
  simp only [List.any_eq_true, decide_eq_true_eq, not_exists, not_and]
  intro p hp hpk
  exact h (hpk ▸ List.mem_map_of_mem Prod.fst hp)

theorem dictInsert_any_of_mem {acc : List (String × α)} {k : String} (v : α)
    (h : k ∈ acc.map Prod.fst) :
    dictInsert acc k v = acc.map (fun p => if p.1 = k then (k, v) else p) := by
  unfold dictInsert
  rw [if_pos]
  rcases List.mem_map.mp h with ⟨p, hp, hpk⟩
  exact List.any_eq_true.mpr ⟨p, hp, decide_eq_true hpk⟩

theorem map_replace_keys (acc : List (String × α)) (k : String) (v : α) :
    (acc.map (fun p => if p.1 = k then (k, v) else p)).map Prod.fst =
      acc.map Prod.fst := by
  rw [List.map_map]
  apply List.map_congr_left
  intro p _
  by_cases hp : p.1 = k
  · simp [hp]
  · simp [hp]

theorem dictInsert_keys_nodup {acc : List (String × α)} {k : String} (v : α)
    (h : (acc.map Prod.fst).Nodup) :
    ((dictInsert acc k v).map Prod.fst).Nodup := by
  by_cases hk : k ∈ acc.map Prod.fst
  · rw [dictInsert_any_of_mem v hk, map_replace_keys]
    exact h
  · rw [dictInsert_of_not_mem v hk, List.map_append]
    simp only [List.map_cons, List.map_nil]
    exact List.Nodup.append h (List.nodup_singleton k)
      (List.disjoint_singleton.mpr hk)

theorem pyDict_go_keys_nodup :
    ∀ (l acc : List (String × α)), (acc.map Prod.fst).Nodup →
      ((l.foldl (fun acc p => dictInsert acc p.1 p.2) acc).map Prod.fst).Nodup
  | [], _, h => h
  | p :: t, acc, h => by
    simpa using pyDict_go_keys_nodup t (dictInsert acc p.1 p.2)
      (dictInsert_keys_nodup p.2 h)

theorem pyDict_keys_nodup (l : List (String × α)) :
    ((pyDict l).map Prod.fst).Nodup :=
  pyDict_go_keys_nodup l [] List.nodup_nil

theorem pyDict_go_of_nodup :
    ∀ (l acc : List (String × α)), (((acc ++ l).map Prod.fst)).Nodup →
      l.foldl (fun acc p => dictInsert acc p.1 p.2) acc = acc ++ l
  | [], acc, _ => by simp
  | p :: t, acc, h => by
    have hk : p.1 ∉ acc.map Prod.fst := by
      intro hmem
      rw [List.map_append, List.nodup_append] at h
      exact h.2.2 hmem (by simp)
    have step : dictInsert acc p.1 p.2 = acc ++ [p] := by
      rw [dictInsert_of_not_mem p.2 hk]
    have h2 : (((acc ++ [p]) ++ t).map Prod.fst).Nodup := by
      simpa using h
    calc (p :: t).foldl (fun acc q => dictInsert acc q.1 q.2) acc
        = t.foldl (fun acc q => dictInsert acc q.1 q.2) (acc ++ [p]) := by
          simp [step]
      _ = (acc ++ [p]) ++ t := pyDict_go_of_nodup t (acc ++ [p]) h2
      _ = acc ++ p :: t := by simp

theorem pyDict_of_nodup {l : List (String × α)} (h : (l.map Prod.fst).Nodup) :
    pyDict l = l :=
  pyDict_go_of_nodup l [] (by simpa using h)

theorem filter_keyEq_eq_nil {acc : List (String × α)} {k : String}
    (h : k ∉ acc.map Prod.fst) : acc.filter (keyEq k) = [] := by
  rw [List.filter_eq_nil_iff]
  intro p hp
  simp only [keyEq, decide_eq_true_eq]
  intro hpk
  exact h (hpk ▸ List.mem_map_of_mem Prod.fst hp)

theorem map_replace_filter_ne {k j : String} (hne : j ≠ k) (v : α) :
    ∀ (acc : List (String × α)),
      (acc.map (fun p => if p.1 = k then (k, v) else p)).filter (keyEq j) =
        acc.filter (keyEq j)
  | [] => rfl
  | p :: t => by
    by_cases hp : p.1 = k
    · have h1 : keyEq j (k, v) = false := by
        simp only [keyEq]
        exact decide_eq_false (fun h => hne h.symm)
      have h2 : keyEq j p = false := by
        simp only [keyEq, decide_eq_false_iff_not]
        intro hc
        exact hne (by rw [← hc, hp])
      simp [hp, h1, h2, map_replace_filter_ne hne v t]
    · by_cases hj : keyEq j p
      · simp [hp, List.filter_cons, hj, map_replace_filter_ne hne v t]
      · simp only [Bool.not_eq_true] at hj
        simp [hp, List.filter_cons, hj, map_replace_filter_ne hne v t]

theorem map_replace_filter_eq {k : String} (v : α) :
    ∀ (acc : List (String × α)), (acc.map Prod.fst).Nodup →
      k ∈ acc.map Prod.fst →
      (acc.map (fun p => if p.1 = k then (k, v) else p)).filter (keyEq k) =
        [(k, v)]
  | [], _, hmem => absurd hmem (List.not_mem_nil k)
  | p :: t, hnd, hmem => by
    simp only [List.map_cons, List.nodup_cons] at hnd
    by_cases hp : p.1 = k
    · have hkt : k ∉ t.map Prod.fst := hp ▸ hnd.1
      have htail : (t.map (fun q => if q.1 = k then (k, v) else q)).filter (keyEq k) = [] := by
        apply filter_keyEq_eq_nil
        rw [map_replace_keys]
        exact hkt
      simp [hp, List.filter_cons, keyEq, htail]
    · have hkt : k ∈ t.map Prod.fst := by
        rw [List.map_cons] at hmem
        rcases List.mem_cons.mp hmem with h1 | h1
        · exact absurd h1.symm hp
        · exact h1
      have hpk : keyEq k p = false := by simp [keyEq, hp]
      simp [hp, List.filter_cons, hpk, map_replace_filter_eq v t hnd.2 hkt]

theorem dictInsert_filter_eq {acc : List (String × α)} {k : String} (v : α)
    (h : (acc.map Prod.fst).Nodup) :
    (dictInsert acc k v).filter (keyEq k) = [(k, v)] := by
  by_cases hk : k ∈ acc.map Prod.fst
  · rw [dictInsert_any_of_mem v hk]
    exact map_replace_filter_eq v acc h hk
  · rw [dictInsert_of_not_mem v hk, List.filter_append, filter_keyEq_eq_nil hk]
    simp [keyEq]

theorem dictInsert_filter_ne {acc : List (String × α)} {k j : String} (v : α)
    (hne : j ≠ k) :
    (dictInsert acc k v).filter (keyEq j) = acc.filter (keyEq j) := by
  by_cases hk : k ∈ acc.map Prod.fst
  · rw [dictInsert_any_of_mem v hk]
    exact map_replace_filter_ne hne v acc
  · rw [dictInsert_of_not_mem v hk, List.filter_append]
    have h1 : keyEq j (k, v) = false := by
      simp only [keyEq]
      exact decide_eq_false (fun h => hne h.symm)
    simp [h1]

theorem pyDict_go_filter (k : String) :
    ∀ (l acc : List (String × α)), (acc.map Prod.fst).Nodup →
      (l.foldl (fun acc p => dictInsert acc p.1 p.2) acc).filter (keyEq k) =
        (match lastAssoc k l with
          | some v => [(k, v)]
          | none => acc.filter (keyEq k))
  | [], _, _ => by simp [lastAssoc]
  | p :: t, acc, h => by
    have hnd : ((dictInsert acc p.1 p.2).map Prod.fst).Nodup :=
      dictInsert_keys_nodup p.2 h
    have ih := pyDict_go_filter k t (dictInsert acc p.1 p.2) hnd
    have hfold : (p :: t).foldl (fun acc q => dictInsert acc q.1 q.2) acc =
        t.foldl (fun acc q => dictInsert acc q.1 q.2) (dictInsert acc p.1 p.2) :=
      rfl
    rw [hfold, ih]
    cases hlast : lastAssoc k t with
    | some v => simp [lastAssoc, hlast]
    | none =>
      by_cases hp : p.1 = k
      · subst hp
        simp only [lastAssoc, hlast, if_pos rfl]
        exact dictInsert_filter_eq p.2 h
      · simp only [lastAssoc, hlast, if_neg hp]
        exact dictInsert_filter_ne p.2 (fun h1 => hp h1.symm)

theorem pyDict_filter_lastAssoc {l : List (String × α)} {k : String} {v : α}
    (h : lastAssoc k l = some v) : (pyDict l).filter (keyEq k) = [(k, v)] := by
  have := pyDict_go_filter k l [] List.nodup_nil
  rw [h] at this
  exact this

theorem dictInsert_map_value (g : α → β) (acc : List (String × α)) (k : String)
    (v : α) :
    dictInsert (acc.map (fun p => (p.1, g p.2))) k (g v) =
      (dictInsert acc k v).map (fun p => (p.1, g p.2)) := by
  have hkeys : (acc.map (fun p => (p.1, g p.2))).map Prod.fst =
      acc.map Prod.fst := by
    rw [List.map_map]
    rfl
  by_cases hk : k ∈ acc.map Prod.fst
  · rw [dictInsert_any_of_mem (g v) (by rw [hkeys]; exact hk),
      dictInsert_any_of_mem v hk, List.map_map, List.map_map]
    apply List.map_congr_left
    intro p _
    by_cases hp : p.1 = k
    · simp [hp]
    · simp [hp]
  · rw [dictInsert_of_not_mem (g v) (by rw [hkeys]; exact hk),
      dictInsert_of_not_mem v hk, List.map_append]
    rfl

theorem pyDict_go_map_value (g : α → β) :
    ∀ (l acc : List (String × α)),
      (l.map (fun p => (p.1, g p.2))).foldl
          (fun acc p => dictInsert acc p.1 p.2)
          (acc.map (fun p => (p.1, g p.2))) =
        (l.foldl (fun acc p => dictInsert acc p.1 p.2) acc).map
          (fun p => (p.1, g p.2))
  | [], _ => rfl
  | p :: t, acc => by
    simp only [List.map_cons, List.foldl_cons]
    rw [dictInsert_map_value g acc p.1 p.2]
    exact pyDict_go_map_value g t (dictInsert acc p.1 p.2)

theorem pyDict_map_value (g : α → β) (l : List (String × α)) :
    pyDict (l.map (fun p => (p.1, g p.2))) =
      (pyDict l).map (fun p => (p.1, g p.2)) :=
  pyDict_go_map_value g l []

/-! ### Helper lemmas: pySorted -/

theorem rankRel_total : ∀ a b : String × ℚ, rankRel a b ∨ rankRel b a :=
  fun a b => (le_total b.2 a.2).imp (fun h => h) (fun h => h)

theorem rankRel_trans : ∀ a b c : String × ℚ,
    rankRel a b → rankRel b c → rankRel a c :=
  fun _ _ _ h1 h2 => le_trans h2 h1

instance : IsTotal (String × ℚ) rankRel := ⟨rankRel_total⟩

instance : IsTrans (String × ℚ) rankRel := ⟨fun a b c => rankRel_trans a b c⟩

theorem pySorted_perm (l : List (String × ℚ)) : List.Perm (pySorted l) l :=
  List.perm_insertionSort rankRel l

theorem pySorted_sorted (l : List (String × ℚ)) :
    (pySorted l).Sorted rankRel :=
  List.sorted_insertionSort rankRel l

theorem orderedInsert_filter_val_pos {a : String × ℚ} {v : ℚ} (ha : a.2 = v) :
    ∀ l : List (String × ℚ),
      (l.orderedInsert rankRel a).filter (valEq v) = a :: l.filter (valEq v)
  | [] => by
    have hat : valEq v a = true := decide_eq_true ha
    simp [List.orderedInsert, hat]
  | y :: l => by
    have hat : valEq v a = true := decide_eq_true ha
    by_cases hr : rankRel a y
    · rw [List.orderedInsert_of_le rankRel l hr]
      simp [List.filter_cons, hat]
    · have hlt : a.2 < y.2 := lt_of_not_le hr
      have hyf : valEq v y = false := by
        apply decide_eq_false
        intro hc
        exact absurd hc.symm (ne_of_lt (ha ▸ hlt))
      have hoi : List.orderedInsert rankRel a (y :: l) =
          y :: List.orderedInsert rankRel a l := by
        simp [List.orderedInsert, hr]
      rw [hoi, List.filter_cons, List.filter_cons]
      simp only [hyf, Bool.false_eq_true, if_false]
      exact orderedInsert_filter_val_pos ha l

theorem orderedInsert_filter_val_neg {a : String × ℚ} {v : ℚ} (ha : a.2 ≠ v) :
    ∀ l : List (String × ℚ),
      (l.orderedInsert rankRel a).filter (valEq v) = l.filter (valEq v)
  | [] => by
    have haf : valEq v a = false := decide_eq_false ha
    simp [List.orderedInsert, haf]
  | y :: l => by
    have haf : valEq v a = false := decide_eq_false ha
    by_cases hr : rankRel a y
    · rw [List.orderedInsert_of_le rankRel l hr]
      rw [List.filter_cons, List.filter_cons]
      simp only [haf, Bool.false_eq_true, if_false]
    · have hoi : List.orderedInsert rankRel a (y :: l) =
          y :: List.orderedInsert rankRel a l := by
        simp [List.orderedInsert, hr]
      rw [hoi, List.filter_cons, List.filter_cons]
      rw [orderedInsert_filter_val_neg ha l]

theorem pySorted_filter_val (v : ℚ) :
    ∀ l : List (String × ℚ), (pySorted l).filter (valEq v) = l.filter (valEq v)
  | [] => rfl
  | a :: l => by
    have ih := pySorted_filter_val v l
    by_cases ha : a.2 = v
    · simp only [pySorted, List.insertionSort] at ih ⊢
      rw [orderedInsert_filter_val_pos ha, ih, List.filter_cons]
      simp [valEq, ha]
    · simp only [pySorted, List.insertionSort] at ih ⊢
      rw [orderedInsert_filter_val_neg ha, ih, List.filter_cons]
      have haf : valEq v a = false := by
        simp only [valEq]
        exact decide_eq_false ha
      simp [haf]

theorem pySorted_map_scale {c : ℚ} (hc : 0 < c) (l : List (String × ℚ)) :
    pySorted (l.map (fun p => (p.1, c * p.2))) =
      (pySorted l).map (fun p => (p.1, c * p.2)) := by
  unfold pySorted
  refine (List.map_insertionSort rankRel rankRel (fun p => (p.1, c * p.2)) l ?_).symm
  intro a _ b _
  constructor
  · intro h
    exact (mul_le_mul_left hc).mpr h
  · intro h
    exact (mul_le_mul_left hc).mp h

/-! ### Helper lemmas: zones and the mass transform -/

theorem massCell_scale (r p : ℚ) :
    massCell (2 * r) p = (massCell r p).map (fun v => 2 * v) := by
  unfold massCell
  by_cases hp : p < 0
  · rw [if_pos hp, if_pos hp]
    rfl
  · rw [if_neg hp, if_neg hp]
    show some (p * (2 * r) * 7 / 1000) = some (2 * (p * r * 7 / 1000))
    congr 1
    ring

theorem filterMap_id_map_optionMap (f : ℚ → ℚ) :
    ∀ pxs : List (Option ℚ),
      (pxs.map (Option.map f)).filterMap id = (pxs.filterMap id).map f
  | [] => rfl
  | none :: t => by
    simp [List.filterMap_cons, filterMap_id_map_optionMap f t]
  | some x :: t => by
    simp [List.filterMap_cons, filterMap_id_map_optionMap f t]

theorem sum_map_mul_left_rat (c : ℚ) :
    ∀ l : List ℚ, (l.map (fun v => c * v)).sum = c * l.sum
  | [] => by simp
  | x :: t => by
    simp [sum_map_mul_left_rat c t, mul_add]

theorem zonalSum_map_scale (f : ℚ → ℚ) (hsum : ∀ l : List ℚ,
    (l.map f).sum = f l.sum) (pxs : List (Option ℚ)) :
    zonalSum (pxs.map (Option.map f)) = (zonalSum pxs).map f := by
  unfold zonalSum
  rw [filterMap_id_map_optionMap f pxs]
  cases hX : pxs.filterMap id with
  | nil => rfl
  | cons x xs =>
    show some ((List.map f (x :: xs)).sum) = some (f (x :: xs).sum)
    rw [hsum]

theorem zoneAggregate_scale (r : ℚ) (pixels : List ℚ) :
    zoneAggregate (2 * r) pixels =
      (zoneAggregate r pixels).map (fun v => 2 * v) := by
  unfold zoneAggregate
  have h1 : pixels.map (fun p => massCell (2 * r) p) =
      (pixels.map (fun p => massCell r p)).map (Option.map (fun v => 2 * v)) := by
    rw [List.map_map]
    apply List.map_congr_left
    intro p _
    exact massCell_scale r p
  rw [h1]
  apply zonalSum_map_scale
  exact fun l => sum_map_mul_left_rat 2 l

theorem zip_keys_nodup {names : List String} (xs : List α)
    (h : names.Nodup) : ((names.zip xs).map Prod.fst).Nodup := by
  induction names generalizing xs with
  | nil => simp
  | cons n t ih =>
    cases xs with
    | nil => simp
    | cons x xt =>
      rw [List.nodup_cons] at h
      rw [List.zip_cons_cons, List.map_cons, List.nodup_cons]
      refine ⟨fun hmem => ?_, ih xt h.2⟩
      rcases List.mem_map.mp hmem with ⟨p, hp, hpn⟩
      obtain ⟨p1, p2⟩ := p
      have hp1 : p1 ∈ t := (List.of_mem_zip hp).1
      have hpn2 : p1 = n := hpn
      apply h.1
      rw [← hpn2]
      exact hp1

/-! ### Helper lemmas: window clamping algebra -/

theorem clamp_pos_iff {a b w : ℚ} (hw : 0 ≤ w) :
    min (max a 0) w < max 0 (min b w) ↔ max a 0 < min b w := by
  constructor
  · intro h
    have hc1 : 0 ≤ min (max a 0) w := le_min (le_max_right a 0) hw
    have hc2 : 0 < max 0 (min b w) := lt_of_le_of_lt hc1 h
    have hbW : 0 < min b w := (lt_max_iff.mp hc2).resolve_left (lt_irrefl 0)
    have hc1lt : min (max a 0) w < min b w :=
      (max_eq_right (le_of_lt hbW)) ▸ h
    rcases le_total (max a 0) w with hle | hle
    · rwa [min_eq_left hle] at hc1lt
    · rw [min_eq_right hle] at hc1lt
      exact absurd (lt_of_lt_of_le hc1lt (min_le_right b w)) (lt_irrefl w)
  · intro h
    have hbW : 0 < min b w := lt_of_le_of_lt (le_max_right a 0) h
    have hWle : max a 0 ≤ w := le_trans (le_of_lt h) (min_le_right b w)
    rw [min_eq_left hWle, max_eq_right (le_of_lt hbW)]
    exact h

theorem affine_clamp_lt {px : ℚ} (hpx : 0 < px) (x0 u v w : ℚ) :
    max u 0 < min v w ↔
      max (x0 + px * u) x0 < min (x0 + px * v) (x0 + px * w) := by
  rw [← mul_lt_mul_left hpx, mul_max_of_nonneg _ _ hpx.le,
    mul_min_of_nonneg _ _ hpx.le, mul_zero, ← add_lt_add_iff_left x0,
    ← max_add_add_left, ← min_add_add_left, add_zero]

theorem sub_lt_sub_left_iff (y A B : ℚ) : y - A < y - B ↔ B < A := by
  constructor
  · intro h
    linarith
  · intro h
    exact sub_lt_sub_left h y

theorem affine_clamp_lt_neg {py : ℚ} (hpy : 0 < py) (y0 s t u : ℚ) :
    max s 0 < min t u ↔
      max (y0 - py * t) (y0 - py * u) < min (y0 - py * s) y0 := by
  rw [← mul_lt_mul_left hpy, mul_max_of_nonneg _ _ hpy.le,
    mul_min_of_nonneg _ _ hpy.le, mul_zero,
    ← sub_lt_sub_left_iff y0 (min (py * t) (py * u)) (max (py * s) 0),
    ← max_sub_sub_left, ← min_sub_sub_left, sub_zero]

theorem zip_fst_snd : ∀ l : List (String × ℚ),
    (l.map Prod.fst).zip (l.map Prod.snd) = l
  | [] => rfl
  | p :: t => by
    rw [List.map_cons, List.map_cons, List.zip_cons_cons, zip_fst_snd t]

/-! ### Claim theorems -/

/-- C1: for every population grid cell and per-capita rate, the
mass-generation transform yields population * rate * 7 / 1000 elementwise,
with every negative population converted to the missing marker before any
multiplication, so no defined output cell is negative (for a non-negative
rate) and no cell holds a mass derived from a negative no-data sentinel. -/
theorem claim1_mass_transform (pop : List (List ℚ)) (rate : ℚ) (i j : ℕ)
    (row : List ℚ) (p : ℚ) (hrate : 0 ≤ rate)
    (hi : pop[i]? = some row) (hj : row[j]? = some p) :
    ∃ orow : List (Option ℚ), (computeArray pop rate)[i]? = some orow ∧
      orow[j]? = some (if p < 0 then none else some (p * rate * 7 / 1000)) ∧
      ∀ q : ℚ, (if p < 0 then none else some (p * rate * 7 / 1000)) = some q →
        0 ≤ q := by
  refine ⟨row.map (fun p => massCell rate p), ?_, ?_, ?_⟩
  · unfold computeArray
    rw [List.getElem?_map, hi]
    rfl
  · rw [List.getElem?_map, hj]
    rfl
  · intro q hq
    by_cases hp : p < 0
    · rw [if_pos hp] at hq
      cases hq
    · rw [if_neg hp] at hq
      obtain rfl : p * rate * 7 / 1000 = q := Option.some.inj hq
      have hp0 : 0 ≤ p := not_lt.mp hp
      have h7 : (0 : ℚ) ≤ 7 := by norm_num
      have h1000 : (0 : ℚ) ≤ 1000 := by norm_num
      exact div_nonneg (mul_nonneg (mul_nonneg hp0 hrate) h7) h1000

/-- Witness for C1 at the concrete grid [[-99999, 2000]] with rate 1: the
sentinel cell becomes the missing marker, not a negative mass. -/
theorem claim1_mass_transform_witness :
    (0 : ℚ) ≤ 1 ∧ [[( -99999 : ℚ), 2000]][0]? = some [(-99999 : ℚ), 2000] ∧
      ∃ orow : List (Option ℚ),
        (computeArray [[(-99999 : ℚ), 2000]] 1)[0]? = some orow ∧
        orow[0]? =
          some (if (-99999 : ℚ) < 0 then none
            else some ((-99999 : ℚ) * 1 * 7 / 1000)) ∧
        ∀ q : ℚ,
          (if (-99999 : ℚ) < 0 then none
            else some ((-99999 : ℚ) * 1 * 7 / 1000)) = some q → 0 ≤ q :=
  ⟨by norm_num, rfl,
    claim1_mass_transform [[(-99999 : ℚ), 2000]] 1 0 0 [(-99999 : ℚ), 2000]
      (-99999) (by norm_num) rfl rfl⟩

/-- C2: the deficit engine computes uncollected = generatedMass minus
reportedCollection by positional correspondence: the i-th reported value is
subtracted from the i-th aggregate. -/
theorem claim2_positional_deficit (stats coll : List ℚ) (i : ℕ) (g r : ℚ)
    (hg : stats[i]? = some g) (hr : coll[i]? = some r) :
    ∃ l : List ℚ, computeUncoll (stats.map some) coll = Except.ok l ∧
      l[i]? = some (g - r) := by
  refine ⟨List.zipWith (fun a b => a - b) stats coll,
    computeUncoll_map_some stats coll, ?_⟩
  exact (List.getElem?_zipWith_eq_some).mpr ⟨g, r, hg, hr, rfl⟩

/-- Witness for C2 at aggregates [100] and reported [30]: position 0 gets
100 - 30. -/
theorem claim2_positional_deficit_witness :
    ([(100 : ℚ)])[0]? = some 100 ∧ ([(30 : ℚ)])[0]? = some 30 ∧
      ∃ l : List ℚ,
        computeUncoll ([(100 : ℚ)].map some) [30] = Except.ok l ∧
        l[0]? = some ((100 : ℚ) - 30) :=
  ⟨rfl, rfl, claim2_positional_deficit [100] [30] 0 100 30 rfl rfl⟩

/-- C4: a zone whose covered pixels are all invalid aggregates to the
explicit undefined value none, never to the number zero, so an uncovered
zone is distinguishable from a zone of true zero generation. -/
theorem claim4_undefined_not_zero (zones : List (String × List (Option ℚ)))
    (i : ℕ) (z : String × List (Option ℚ)) (hz : zones[i]? = some z)
    (hall : ∀ px ∈ z.2, px = none) :
    (getNamesStats zones).2[i]? = some none ∧
      ∀ q : ℚ, (getNamesStats zones).2[i]? ≠ some (some q) := by
  have hsum : zonalSum z.2 = none := by
    unfold zonalSum
    have hnil : z.2.filterMap id = [] := by
      rw [List.filterMap_eq_nil_iff]
      intro a ha
      rw [hall a ha]
      rfl
    rw [hnil]
    rfl
  have hget : (getNamesStats zones).2[i]? = some none := by
    show (zones.map (fun z => zonalSum z.2))[i]? = some none
    rw [List.getElem?_map, hz]
    simp [hsum]
  exact ⟨hget, fun q hq => by rw [hget] at hq; cases Option.some.inj hq⟩

/-- Witness for C4 at one zone covering two invalid pixels. -/
theorem claim4_undefined_not_zero_witness :
    ([("Z", [none, none])] : List (String × List (Option ℚ)))[0]? =
        some ("Z", [none, none]) ∧
      (∀ px ∈ ([none, none] : List (Option ℚ)), px = none) ∧
      (getNamesStats [("Z", [none, none])]).2[0]? = some none ∧
      ∀ q : ℚ, (getNamesStats [("Z", [none, none])]).2[0]? ≠ some (some q) := by
  refine ⟨rfl, by decide, ?_⟩
  exact claim4_undefined_not_zero [("Z", [none, none])] 0 ("Z", [none, none])
    rfl (by decide)

/-- C5 evaluation: an undefined zonal aggregate does not propagate to an
undefined deficit; the subtraction raises TypeError and processStats
aborts, so the ranking never runs. -/
theorem claim5_undefined_aggregate_crashes :
    processProviderStats ["Provider A"] [none] [10] =
      Except.error "TypeError" := rfl

/-- C3: for every list of name-value pairs with distinct names, the
ranking is a permutation of the input, sorted in descending order by
value, and pairs of equal value keep their original relative input order:
for each value v the subsequence carrying v is exactly the input
subsequence carrying v. -/
theorem claim3_ranking_sorted_stable (l : List (String × ℚ))
    (hnd : (l.map Prod.fst).Nodup) :
    List.Perm (processRanking (l.map Prod.fst) (l.map Prod.snd)) l ∧
      (processRanking (l.map Prod.fst) (l.map Prod.snd)).Sorted rankRel ∧
      ∀ v : ℚ,
        (processRanking (l.map Prod.fst) (l.map Prod.snd)).filter (valEq v) =
          l.filter (valEq v) := by
  have hd : processRanking (l.map Prod.fst) (l.map Prod.snd) = pySorted l := by
    unfold processRanking
    rw [zip_fst_snd l, pyDict_of_nodup hnd]
  rw [hd]
  exact ⟨pySorted_perm l, pySorted_sorted l, fun v => pySorted_filter_val v l⟩

/-- Witness for C3 at the input [(A,30), (B,30), (C,10)] from the spec:
the theorem applies, and the ranking is [(A,30), (B,30), (C,10)], ties
preserving input order. -/
theorem claim3_ranking_sorted_stable_witness :
    (([("A", (30 : ℚ)), ("B", 30), ("C", 10)].map Prod.fst).Nodup) ∧
      (List.Perm
          (processRanking
            ([("A", (30 : ℚ)), ("B", 30), ("C", 10)].map Prod.fst)
            ([("A", (30 : ℚ)), ("B", 30), ("C", 10)].map Prod.snd))
          [("A", (30 : ℚ)), ("B", 30), ("C", 10)] ∧
        (processRanking
            ([("A", (30 : ℚ)), ("B", 30), ("C", 10)].map Prod.fst)
            ([("A", (30 : ℚ)), ("B", 30), ("C", 10)].map Prod.snd)).Sorted
          rankRel ∧
        ∀ v : ℚ,
          (processRanking
              ([("A", (30 : ℚ)), ("B", 30), ("C", 10)].map Prod.fst)
              ([("A", (30 : ℚ)), ("B", 30), ("C", 10)].map Prod.snd)).filter
            (valEq v) =
          [("A", (30 : ℚ)), ("B", 30), ("C", 10)].filter (valEq v)) ∧
      processRanking ["A", "B", "C"] [(30 : ℚ), 30, 10] =
        [("A", 30), ("B", 30), ("C", 10)] :=
  ⟨by decide,
    claim3_ranking_sorted_stable [("A", 30), ("B", 30), ("C", 10)] (by decide),
    by simp [processRanking, pySorted, pyDict, dictInsert, List.insertionSort,
      List.orderedInsert, rankRel]⟩

/-- C7: a service area whose reported collection exceeds its generation
gets a negative deficit, and that pair survives intact (correctly signed,
not clamped) into the ranked output. -/
theorem claim7_negative_deficit_preserved (names : List String)
    (stats coll : List ℚ) (i : ℕ) (n : String) (g r : ℚ)
    (hnd : names.Nodup) (hn : names[i]? = some n) (hg : stats[i]? = some g)
    (hr : coll[i]? = some r) (hgr : g < r) :
    ∃ out, processProviderStats names (stats.map some) coll =
        Except.ok out ∧ (n, g - r) ∈ out ∧ g - r < 0 := by
  refine ⟨processRanking names (List.zipWith (fun a b => a - b) stats coll),
    ?_, ?_, sub_neg.mpr hgr⟩
  · unfold processProviderStats
    rw [computeUncoll_map_some]
    rfl
  · have hu : (List.zipWith (fun a b => a - b) stats coll)[i]? =
        some (g - r) :=
      (List.getElem?_zipWith_eq_some).mpr ⟨g, r, hg, hr, rfl⟩
    have hmem : (n, g - r) ∈
        names.zip (List.zipWith (fun a b => a - b) stats coll) := by
      apply List.getElem?_mem (n := i)
      rw [List.getElem?_zip_eq_some]
      exact ⟨hn, hu⟩
    unfold processRanking
    rw [pyDict_of_nodup (zip_keys_nodup _ hnd)]
    exact ((pySorted_perm _).mem_iff).mpr hmem

/-- Witness for C7: generated 100, reported 120, deficit 100 - 120,
negative and present in the ranked output. -/
theorem claim7_negative_deficit_preserved_witness :
    (["P"] : List String).Nodup ∧ (["P"] : List String)[0]? = some "P" ∧
      ([(100 : ℚ)])[0]? = some 100 ∧ ([(120 : ℚ)])[0]? = some 120 ∧
      (100 : ℚ) < 120 ∧
      ∃ out, processProviderStats ["P"] ([(100 : ℚ)].map some) [120] =
          Except.ok out ∧ ("P", (100 : ℚ) - 120) ∈ out ∧ (100 : ℚ) - 120 < 0 :=
  ⟨by decide, rfl, rfl, rfl, by decide,
    claim7_negative_deficit_preserved ["P"] [100] [120] 0 "P" 100 120
      (by decide) rfl rfl rfl (by decide)⟩

/-- C9: when several zones share a display name, the ranking step silently
collapses them: the ranked output carries exactly one entry for that name,
holding the value of the last input pair with that name, and the output
names are pairwise distinct; no error is raised (the computation is
total). -/
theorem claim9_duplicate_names_collapse (l : List (String × ℚ)) (k : String)
    (v : ℚ) (h : lastAssoc k l = some v) :
    (processRanking (l.map Prod.fst) (l.map Prod.snd)).filter (keyEq k) =
        [(k, v)] ∧
      ((processRanking (l.map Prod.fst) (l.map Prod.snd)).map Prod.fst).Nodup := by
  have hd : processRanking (l.map Prod.fst) (l.map Prod.snd) =
      pySorted (pyDict l) := by
    unfold processRanking
    rw [zip_fst_snd l]
  rw [hd]
  constructor
  · have hperm : List.Perm ((pySorted (pyDict l)).filter (keyEq k))
        ((pyDict l).filter (keyEq k)) :=
      (pySorted_perm (pyDict l)).filter (keyEq k)
    rw [pyDict_filter_lastAssoc h] at hperm
    exact List.perm_singleton.mp hperm
  · have hperm : List.Perm ((pySorted (pyDict l)).map Prod.fst)
        ((pyDict l).map Prod.fst) :=
      (pySorted_perm (pyDict l)).map Prod.fst
    exact (hperm.nodup_iff).mpr (pyDict_keys_nodup l)

/-- Witness for C9 at [(A,1), (A,5), (B,2)]: the single A entry holds 5,
the value of the last A pair. -/
theorem claim9_duplicate_names_collapse_witness :
    lastAssoc "A" [("A", (1 : ℚ)), ("A", 5), ("B", 2)] = some 5 ∧
      (processRanking
            ([("A", (1 : ℚ)), ("A", 5), ("B", 2)].map Prod.fst)
            ([("A", (1 : ℚ)), ("A", 5), ("B", 2)].map Prod.snd)).filter
          (keyEq "A") = [("A", 5)] ∧
      ((processRanking
            ([("A", (1 : ℚ)), ("A", 5), ("B", 2)].map Prod.fst)
            ([("A", (1 : ℚ)), ("A", 5), ("B", 2)].map Prod.snd)).map
          Prod.fst).Nodup :=
  ⟨by decide,
    claim9_duplicate_names_collapse [("A", 1), ("A", 5), ("B", 2)] "A" 5
      (by decide)⟩

/-- C10: when the reported-collection list and the aggregate list differ in
length, the deficit list is silently truncated to the shorter length and no
error is raised. -/
theorem claim10_zip_truncation (stats coll : List ℚ) :
    ∃ l : List ℚ, computeUncoll (stats.map some) coll = Except.ok l ∧
      l.length = min stats.length coll.length :=
  ⟨List.zipWith (fun a b => a - b) stats coll,
    computeUncoll_map_some stats coll, List.length_zipWith _ _ _⟩

/-- C8: doubling the per-capita rate doubles every defined cell of the mass
grid (the missing marker stays missing), hence every zone aggregate, and
scaling all values by the positive factor 2 leaves the ranking name order
unchanged. -/
theorem claim8_rate_doubling (pop : List (List ℚ))
    (zones : List (String × List ℚ)) (names : List String)
    (stats : List ℚ) (r : ℚ) (_hr : 0 < r) :
    computeArray pop (2 * r) =
        (computeArray pop r).map
          (fun row => row.map (Option.map (fun v => 2 * v))) ∧
      zones.map (fun z => zoneAggregate (2 * r) z.2) =
        (zones.map (fun z => zoneAggregate r z.2)).map
          (Option.map (fun v => 2 * v)) ∧
      (processRanking names (stats.map (fun v => 2 * v))).map Prod.fst =
        (processRanking names stats).map Prod.fst := by
  refine ⟨?_, ?_, ?_⟩
  · unfold computeArray
    rw [List.map_map]
    apply List.map_congr_left
    intro row _
    show row.map (fun p => massCell (2 * r) p) =
      (row.map (fun p => massCell r p)).map (Option.map (fun v => 2 * v))
    rw [List.map_map]
    apply List.map_congr_left
    intro p _
    exact massCell_scale r p
  · rw [List.map_map]
    apply List.map_congr_left
    intro z _
    exact zoneAggregate_scale r z.2
  · unfold processRanking
    rw [List.zip_map_right,
      show Prod.map (@id String) (fun v : ℚ => 2 * v) =
        (fun p : String × ℚ => (p.1, 2 * p.2)) from funext fun p => rfl,
      pyDict_map_value, pySorted_map_scale (by norm_num : (0 : ℚ) < 2),
      List.map_map]
    apply List.map_congr_left
    intro p _
    rfl

/-- Witness for C8 at a small concrete grid, zone set and stat list with
rate 1. -/
theorem claim8_rate_doubling_witness :
    (0 : ℚ) < 1 ∧
      (computeArray [[(3 : ℚ), -1]] (2 * 1) =
          (computeArray [[(3 : ℚ), -1]] 1).map
            (fun row => row.map (Option.map (fun v => 2 * v))) ∧
        [("Z", [(3 : ℚ), -1])].map (fun z => zoneAggregate (2 * 1) z.2) =
          ([("Z", [(3 : ℚ), -1])].map (fun z => zoneAggregate 1 z.2)).map
            (Option.map (fun v => 2 * v)) ∧
        (processRanking ["A", "B"]
            ([(5 : ℚ), 4].map (fun v => 2 * v))).map Prod.fst =
          (processRanking ["A", "B"] [(5 : ℚ), 4]).map Prod.fst) :=
  ⟨by decide,
    claim8_rate_doubling [[(3 : ℚ), -1]] [("Z", [(3 : ℚ), -1])] ["A", "B"]
      [(5 : ℚ), 4] 1 (by decide)⟩

/-- C6 counterexample: the bounding box x in [20, 30], y in [0, 10] does
not intersect the raster extent x in [0, 10], y in [0, 10] (no x overlap),
yet window extraction does not fail: it returns an empty window of zero
width cropped to the extent edge. -/
theorem claim6_counterexample :
    extractWindow ⟨0, 10, 1, 1, 10, 10⟩ ((20 : ℚ), 0, 30, 10) =
        Except.ok ⟨10, 0, 0, 10⟩ ∧
      min (30 : ℚ) (0 + 1 * 10) ≤ max (20 : ℚ) 0 ∧
      ∀ e, extractWindow ⟨0, 10, 1, 1, 10, 10⟩ ((20 : ℚ), 0, 30, 10) ≠
        Except.error e := by
  refine ⟨?_, by norm_num, ?_⟩
  · unfold extractWindow cropWin datasetWindow
    norm_num
  · intro e
    unfold extractWindow
    intro hc
    cases hc

/-- C6 amended: window extraction never fails, for any bounding box; the
returned window is the requested window cropped to the raster extent, so
it lies inside the extent, its width is positive exactly when the box's x
range overlaps the raster x extent, and its height is positive exactly
when the box's y range overlaps the raster y extent.  A disjoint box
yields an empty (zero-width or zero-height) window instead of an error; a
partially intersecting box yields the clipped window. -/
theorem claim6_amended_window_clipping (R : Raster) (left bottom right top : ℚ)
    (hpx : 0 < R.px) (hpy : 0 < R.py) :
    ∃ w : Win, extractWindow R (left, bottom, right, top) = Except.ok w ∧
      0 ≤ w.colOff ∧ w.colOff + w.w ≤ (R.W : ℚ) ∧
      0 ≤ w.rowOff ∧ w.rowOff + w.h ≤ (R.H : ℚ) ∧
      (0 < w.w ↔ max left R.x0 < min right (R.x0 + R.px * R.W)) ∧
      (0 < w.h ↔ max bottom (R.y0 - R.py * R.H) < min top R.y0) := by
  refine ⟨cropWin R (datasetWindow R (left, bottom, right, top)), rfl,
    ?_, ?_, ?_, ?_, ?_, ?_⟩
  · exact le_min (le_max_right _ 0) (Nat.cast_nonneg R.W)
  · show min (max _ 0) (R.W : ℚ) +
      (max 0 (min _ (R.W : ℚ)) - min (max _ 0) (R.W : ℚ)) ≤ (R.W : ℚ)
    rw [add_sub_cancel]
    exact max_le (Nat.cast_nonneg R.W) (min_le_right _ _)
  · exact le_min (le_max_right _ 0) (Nat.cast_nonneg R.H)
  · show min (max _ 0) (R.H : ℚ) +
      (max 0 (min _ (R.H : ℚ)) - min (max _ 0) (R.H : ℚ)) ≤ (R.H : ℚ)
    rw [add_sub_cancel]
    exact max_le (Nat.cast_nonneg R.H) (min_le_right _ _)
  · show 0 < max 0 (min ((left - R.x0) / R.px + (right - left) / R.px)
        (R.W : ℚ)) - min (max ((left - R.x0) / R.px) 0) (R.W : ℚ) ↔ _
    have hb : (left - R.x0) / R.px + (right - left) / R.px =
        (right - R.x0) / R.px := by
      rw [div_add_div_same]
      congr 1
      ring
    rw [hb, sub_pos, clamp_pos_iff (Nat.cast_nonneg R.W),
      affine_clamp_lt hpx R.x0 ((left - R.x0) / R.px) ((right - R.x0) / R.px)
        (R.W : ℚ),
      mul_div_cancel₀ _ (ne_of_gt hpx), mul_div_cancel₀ _ (ne_of_gt hpx),
      add_sub_cancel, add_sub_cancel]
  · show 0 < max 0 (min ((R.y0 - top) / R.py + (top - bottom) / R.py)
        (R.H : ℚ)) - min (max ((R.y0 - top) / R.py) 0) (R.H : ℚ) ↔ _
    have hb : (R.y0 - top) / R.py + (top - bottom) / R.py =
        (R.y0 - bottom) / R.py := by
      rw [div_add_div_same]
      congr 1
      ring
    rw [hb, sub_pos, clamp_pos_iff (Nat.cast_nonneg R.H),
      affine_clamp_lt_neg hpy R.y0 ((R.y0 - top) / R.py)
        ((R.y0 - bottom) / R.py) (R.H : ℚ),
      mul_div_cancel₀ _ (ne_of_gt hpy), mul_div_cancel₀ _ (ne_of_gt hpy)]
    have h1 : R.y0 - (R.y0 - bottom) = bottom := by ring
    have h2 : R.y0 - (R.y0 - top) = top := by ring
    rw [h1, h2]

/-- Witness for C6 amended at a concrete raster and a partially
intersecting bounding box. -/
theorem claim6_amended_window_clipping_witness :
    (0 : ℚ) < 1 ∧
      ∃ w : Win,
        extractWindow ⟨0, 10, 1, 1, 10, 10⟩ ((5 : ℚ), 3, 30, 8) =
            Except.ok w ∧
          0 ≤ w.colOff ∧ w.colOff + w.w ≤ ((10 : ℕ) : ℚ) ∧
          0 ≤ w.rowOff ∧ w.rowOff + w.h ≤ ((10 : ℕ) : ℚ) ∧
          (0 < w.w ↔
            max (5 : ℚ) 0 < min (30 : ℚ) ((0 : ℚ) + 1 * ((10 : ℕ) : ℚ))) ∧
          (0 < w.h ↔
            max (3 : ℚ) ((10 : ℚ) - 1 * ((10 : ℕ) : ℚ)) <
              min (8 : ℚ) (10 : ℚ)) :=
  ⟨by decide,
    claim6_amended_window_clipping ⟨0, 10, 1, 1, 10, 10⟩ 5 3 30 8
      (by decide) (by decide)⟩

end SolidWaste
